import Mathlib

/-!
Verification of the amunchain core against its natural-language specification.

This file shallowly embeds the parts of the repository that the checked claims
talk about:

* `src/core/types.rs` — the canonical codec (`encode_canonical`,
  `decode_canonical_limited`), instantiated at the representative payload
  types `u64` and `Vec<u8>`.  The codec is bincode with
  `with_fixint_encoding().reject_trailing_bytes()` on `DefaultOptions`,
  i.e. fixed-width little-endian integers and `u64` length prefixes.
* `src/core/consensus/tide.rs` — the Tide finalizer: freshness and
  replay-counter checks, vote recording, double-vote detection and commit
  assembly.  Machine integers are modelled as `Nat` with explicit saturation
  where the source saturates.  Wall-clock reads (`now_ms`) become an explicit
  `now` argument; Ed25519 signature verification (the external
  `ed25519-dalek` / `ring` primitives behind `Keystore::verify_pubkey_bytes`)
  becomes an abstract boolean oracle argument; the `Slashing` hook becomes an
  append-only event list in the state.
* `src/core/state/merkle.rs` — the sorted Merkle tree, parametric in the
  (external, `ring`-provided) SHA-256 compression function.
* `src/networking/p2p.rs` — `BackoffState::bump`, together with a concrete
  SHA-256 so that the deterministic jitter can be evaluated on concrete
  inputs.

Rust `BTreeMap`s are modelled as association lists with insert-or-replace;
iteration order differs from the sorted order of a `BTreeMap`, and each place
where that could matter is discharged by a lemma showing the outcome is
order-independent (at most one vote group can reach the commit threshold).
-/

/-! ## Association-list maps (model of `BTreeMap` lookups and inserts) -/

/-- Lookup in an association list; model of `BTreeMap::get`. -/
def lookupA {α β : Type} [DecidableEq α] : List (α × β) → α → Option β
  | [], _ => none
  | (k, v) :: rest, k' => if k = k' then some v else lookupA rest k'

/-- Insert-or-replace in an association list; model of `BTreeMap::insert`. -/
def insertA {α β : Type} [DecidableEq α] (k : α) (v : β) : List (α × β) → List (α × β)
  | [] => [(k, v)]
  | (k', v') :: rest => if k' = k then (k, v) :: rest else (k', v') :: insertA k v rest

theorem lookupA_insertA_self {α β : Type} [DecidableEq α] (k : α) (v : β) (l : List (α × β)) :
    lookupA (insertA k v l) k = some v := by
  induction l with
  | nil => simp [insertA, lookupA]
  | cons hd tl ih =>
    by_cases h : hd.1 = k <;> simp [insertA, lookupA, h, ih]

theorem lookupA_insertA_ne {α β : Type} [DecidableEq α] (k k' : α) (v : β) (l : List (α × β))
    (h : k ≠ k') : lookupA (insertA k v l) k' = lookupA l k' := by
  induction l with
  | nil => simp [insertA, lookupA, h]
  | cons hd tl ih =>
    by_cases hh : hd.1 = k <;> simp [insertA, lookupA, hh, ih] <;> rw [if_neg] <;> simp_all

theorem insertA_of_lookupA_none {α β : Type} [DecidableEq α] (k : α) (v : β) (l : List (α × β))
    (h : lookupA l k = none) : insertA k v l = l ++ [(k, v)] := by
  induction l with
  | nil => simp [insertA]
  | cons hd tl ih =>
    simp only [lookupA] at h
    by_cases hh : hd.1 = k
    · simp [hh] at h
    · simp only [insertA, hh, if_false, List.cons_append, List.cons.injEq, true_and]
      exact ih (by simpa [hh] using h)

theorem lookupA_eq_none_iff {α β : Type} [DecidableEq α] (l : List (α × β)) (k : α) :
    lookupA l k = none ↔ k ∉ l.map Prod.fst := by
  induction l with
  | nil => simp [lookupA]
  | cons hd tl ih =>
    simp only [lookupA, List.map_cons, List.mem_cons]
    by_cases hh : hd.1 = k
    · simp [hh]
    · have hk : ¬ k = hd.1 := fun h => hh h.symm
      simp [hh, hk, ih]

/-! ## Canonical codec (`src/core/types.rs`)

`bincode_opts()` configures bincode 1.x `DefaultOptions` with
`with_fixint_encoding()` and `reject_trailing_bytes()`: integers are encoded
fixed-width in little-endian byte order, container lengths as a fixed-width
little-endian `u64` prefix.  We embed the codec at the two representative
payload shapes the repository serializes: a bare `u64` and a byte vector.
Bytes are `Nat`s below 256; values are `Nat`s below `2^64` on the Rust side. -/

/-- Codec failure taxonomy from `CodecError` in `src/core/types.rs`. -/
inductive CodecError
  | Serialize
  | Deserialize
  | TooLarge
deriving DecidableEq, Repr

/-- Little-endian fixed-width byte extraction: `k` bytes of `n`, least
significant first.  This is what `byteorder::LittleEndian` writes for a
fixed-width integer under bincode fixint encoding. -/
def leBytesAux : Nat → Nat → List Nat
  | 0, _ => []
  | k + 1, n => n % 256 :: leBytesAux k (n / 256)

/-- Little-endian read of a byte list (least significant byte first). -/
def leToNat : List Nat → Nat
  | [] => 0
  | b :: rest => b + 256 * leToNat rest

/-- `encode_canonical::<u64>`: bincode fixint encoding of a `u64`, i.e. its
eight bytes in little-endian order. -/
def encode_canonical_u64 (n : Nat) : List Nat := leBytesAux 8 n

/-- `decode_canonical_limited::<u64>`: reject inputs longer than the cap with
`TooLarge`; otherwise bincode reads exactly eight bytes and
`reject_trailing_bytes` fails any leftover, so exactly-eight-byte inputs
decode and everything else is `Deserialize`. -/
def decode_canonical_limited_u64 (bytes : List Nat) (max : Nat) : Except CodecError Nat :=
  if max < bytes.length then .error .TooLarge
  else if bytes.length = 8 then .ok (leToNat bytes)
  else .error .Deserialize

/-- `encode_canonical::<Vec<u8>>`: a fixed-width little-endian `u64` length
prefix followed by the raw bytes. -/
def encode_canonical_bytes (v : List Nat) : List Nat := encode_canonical_u64 v.length ++ v

/-- `decode_canonical_limited::<Vec<u8>>`: cap check first (`TooLarge`), then
bincode reads an eight-byte length `L` and `L` payload bytes under the
`with_limit` budget; short input, a length not matching the remainder, or
trailing bytes all surface as `Deserialize`. -/
def decode_canonical_limited_bytes (bytes : List Nat) (max : Nat) : Except CodecError (List Nat) :=
  if max < bytes.length then .error .TooLarge
  else if 8 ≤ bytes.length ∧ leToNat (bytes.take 8) = bytes.length - 8 then .ok (bytes.drop 8)
  else .error .Deserialize

/-- Success test for a decode result. -/
def exceptOk {ε α : Type} : Except ε α → Bool
  | .ok _ => true
  | .error _ => false

theorem leBytesAux_length (k n : Nat) : (leBytesAux k n).length = k := by
  induction k generalizing n with
  | zero => simp [leBytesAux]
  | succ k ih => simp [leBytesAux, ih]

theorem leToNat_leBytesAux8 (n : Nat) (h : n < 2 ^ 64) : leToNat (leBytesAux 8 n) = n := by
  simp only [leBytesAux, leToNat]
  omega

/-- Claim C7: canonical round-trip at the representative payload types.
Encoded values within the cap decode back to themselves; any input longer
than the cap is rejected with `TooLarge`; and appending a trailing byte to a
canonical encoding makes decoding fail. -/
theorem c7_canonical_roundtrip :
    (∀ n cap, n < 2 ^ 64 → (encode_canonical_u64 n).length ≤ cap →
      decode_canonical_limited_u64 (encode_canonical_u64 n) cap = .ok n) ∧
    (∀ bytes cap, cap < bytes.length →
      decode_canonical_limited_u64 bytes cap = .error .TooLarge) ∧
    (∀ n cap b, exceptOk (decode_canonical_limited_u64 (encode_canonical_u64 n ++ [b]) cap)
      = false) ∧
    (∀ v cap, v.length < 2 ^ 64 → (encode_canonical_bytes v).length ≤ cap →
      decode_canonical_limited_bytes (encode_canonical_bytes v) cap = .ok v) ∧
    (∀ bytes cap, cap < bytes.length →
      decode_canonical_limited_bytes bytes cap = .error .TooLarge) ∧
    (∀ v cap b, v.length < 2 ^ 64 →
      exceptOk (decode_canonical_limited_bytes (encode_canonical_bytes v ++ [b]) cap) = false) := by
  have hlen : ∀ n : Nat, (encode_canonical_u64 n).length = 8 := fun n => leBytesAux_length 8 n
  have htake : ∀ (v : List Nat) (n : Nat) (rest : List Nat),
      ((encode_canonical_u64 n ++ v) ++ rest).take 8 = encode_canonical_u64 n := by
    intro v n rest
    rw [List.append_assoc, List.take_append_of_le_length (by rw [hlen]),
      List.take_of_length_le (by rw [hlen])]
  constructor
  · intro n cap hn hcap
    rw [hlen] at hcap
    have hto : leToNat (encode_canonical_u64 n) = n := by
      simp only [encode_canonical_u64]
      exact leToNat_leBytesAux8 n hn
    unfold decode_canonical_limited_u64
    rw [hlen, if_neg (by omega), if_pos rfl, hto]
  constructor
  · intro bytes cap h
    simp [decode_canonical_limited_u64, h]
  constructor
  · intro n cap b
    have h9 : (encode_canonical_u64 n ++ [b]).length = 9 := by
      rw [List.length_append, hlen]; rfl
    unfold decode_canonical_limited_u64
    rw [h9]
    by_cases h : cap < 9 <;> simp [h, exceptOk]
  constructor
  · intro v cap hv hcap
    simp only [encode_canonical_bytes, List.length_append, hlen] at hcap
    have ht : (encode_canonical_u64 v.length ++ v).take 8 = encode_canonical_u64 v.length := by
      simpa using htake v v.length []
    have hd : (encode_canonical_u64 v.length ++ v).drop 8 = v := by
      rw [List.drop_append_of_le_length (by rw [hlen]),
        List.drop_of_length_le (by rw [hlen]), List.nil_append]
    have hto : leToNat (encode_canonical_u64 v.length) = v.length := by
      simp only [encode_canonical_u64]
      exact leToNat_leBytesAux8 v.length hv
    unfold decode_canonical_limited_bytes
    rw [encode_canonical_bytes, List.length_append, hlen, if_neg (by omega),
      if_pos ⟨by omega, by rw [ht, hto]; omega⟩, hd]
  constructor
  · intro bytes cap h
    simp [decode_canonical_limited_bytes, h]
  · intro v cap b hv
    by_cases h : cap < (encode_canonical_bytes v ++ [b]).length
    · unfold decode_canonical_limited_bytes
      rw [if_pos h]
      rfl
    · have ht : (encode_canonical_bytes v ++ [b]).take 8 = encode_canonical_u64 v.length := by
        simpa [encode_canonical_bytes] using htake v v.length [b]
      have hto : leToNat (encode_canonical_u64 v.length) = v.length := by
        simp only [encode_canonical_u64]
        exact leToNat_leBytesAux8 v.length hv
      have hlen2 : (encode_canonical_bytes v ++ [b]).length = 9 + v.length := by
        simp [encode_canonical_bytes, hlen]; omega
      unfold decode_canonical_limited_bytes
      rw [hlen2, ht, hto]
      simp only [h, hlen2] at *
      rw [if_neg (by omega), if_neg (by omega)]
      rfl

/-- Claim C7 witness: the round-trip and cap rejection evaluated at concrete
inputs. -/
theorem c7_canonical_roundtrip_witness :
    decode_canonical_limited_u64 (encode_canonical_u64 7) 8 = .ok 7 ∧
    decode_canonical_limited_bytes (encode_canonical_bytes [1, 2, 3]) 11 = .ok [1, 2, 3] ∧
    decode_canonical_limited_u64 [0, 0, 0, 0, 0, 0, 0, 0, 0] 8 = .error .TooLarge ∧
    exceptOk (decode_canonical_limited_u64 (encode_canonical_u64 7 ++ [0]) 100) = false :=
  ⟨c7_canonical_roundtrip.1 7 8 (by decide) (by decide),
   c7_canonical_roundtrip.2.2.2.1 [1, 2, 3] 11 (by decide) (by decide),
   c7_canonical_roundtrip.2.1 [0, 0, 0, 0, 0, 0, 0, 0, 0] 8 (by decide),
   c7_canonical_roundtrip.2.2.1 7 100 0⟩

/-- The eight bytes of `n` in big-endian byte order — this definition follows
the words of the specification (big-endian fixed-width integers), to be
compared with the encoding the source actually produces. -/
def spec_be8 (n : Nat) : List Nat :=
  [n / 2 ^ 56 % 256, n / 2 ^ 48 % 256, n / 2 ^ 40 % 256, n / 2 ^ 32 % 256,
   n / 2 ^ 24 % 256, n / 2 ^ 16 % 256, n / 2 ^ 8 % 256, n % 256]

/-- Claim C8 counterexample: the canonical encoding of the `u64` value 1 is
not its big-endian byte string — bincode fixint encoding is little-endian. -/
theorem c8_big_endian_counterexample : encode_canonical_u64 1 ≠ spec_be8 1 := by decide

/-- Claim C8 (amended): `encode_canonical` serializes integers fixed-width
little-endian — the canonical encoding of a `u64` is the reverse of its
big-endian byte string — and container lengths are a fixed-width `u64`
prefix in the same little-endian byte order. -/
theorem c8_fixed_width_little_endian :
    (∀ n, encode_canonical_u64 n = (spec_be8 n).reverse) ∧
    (∀ v, encode_canonical_bytes v = (spec_be8 v.length).reverse ++ v) := by
  have h : ∀ n, encode_canonical_u64 n = (spec_be8 n).reverse := by
    intro n
    simp only [encode_canonical_u64, leBytesAux, spec_be8, List.reverse_cons, List.reverse_nil,
      List.nil_append, List.cons_append, List.singleton_append, List.cons.injEq, and_true,
      Nat.div_div_eq_div_mul]
    norm_num
  exact ⟨h, fun v => by rw [encode_canonical_bytes, h]⟩

/-! ## Tide finality gadget (`src/core/consensus/tide.rs`)

The embedding is state-passing: `TideFinalizer` becomes `TideState`, methods
become functions from state to result-and-state.  The wall clock
(`Self::now_ms()`, a `SystemTime` read that yields 0 when unavailable)
becomes an explicit `now : Nat` argument.  Ed25519 signature verification
(`Keystore::verify_pubkey_bytes`, an external `ring`/`ed25519-dalek`
primitive) becomes an abstract oracle `sigOk : Vote → Bool`; the
`voter.as_public_key_bytes()` length-32 gate stays concrete.  The `Slashing`
hook becomes an append-only `slashed` event list in the state. -/

/-- Validator identity: the raw public-key byte string (`ValidatorId`). -/
abbrev ValidatorId := List Nat

/-- 32-byte hash as a byte list (`H256`). -/
abbrev H256 := List Nat

/-- Signature byte string (`Signature`). -/
abbrev SigBytes := List Nat

/-- The `u64::MAX` bound used by `saturating_add`. -/
def U64MAX : Nat := 2 ^ 64 - 1

/-- `u64::saturating_add`. -/
def satAdd64 (a b : Nat) : Nat := min (a + b) U64MAX

/-- Error taxonomy of `TideError`. -/
inductive TideError
  | Replay
  | UnknownValidator
  | BadSignature
  | DoubleVote
  | NotEnoughVotes
  | Signing
  | Keystore
deriving DecidableEq, Repr

/-- `TideConfig`: validator set (a `BTreeSet`, modelled as a list expected
without duplicates), clock-skew and TTL bounds, epoch-requirement flag. -/
structure TideConfig where
  validators : List ValidatorId
  max_clock_skew_ms : Nat
  max_ttl_ms : Nat
  require_epoch : Bool
deriving DecidableEq, Repr

/-- `VoteMeta`: replay-window metadata sealed into a v2 vote. -/
structure VoteMeta where
  epoch : Nat
  msg_counter : Nat
  sent_ts_ms : Nat
  ttl_ms : Nat
deriving DecidableEq, Repr

/-- `ReplayState`: per-validator replay protection state. -/
structure ReplayState where
  epoch : Nat
  last_counter : Nat
  last_sent_ts_ms : Nat
deriving DecidableEq, Repr

/-- `Vote` message. -/
structure Vote where
  height : Nat
  round : Nat
  epoch : Nat
  msg_counter : Nat
  sent_ts_ms : Nat
  ttl_ms : Nat
  block_hash : H256
  voter : ValidatorId
  signature : SigBytes
deriving DecidableEq, Repr

/-- `Commit` message.  The source keeps `signatures` in a `BTreeMap`; the
model keeps the association list in vote-arrival order, which the checked
claims never observe. -/
structure Commit where
  height : Nat
  round : Nat
  epoch : Nat
  msg_counter : Nat
  sent_ts_ms : Nat
  ttl_ms : Nat
  block_hash : H256
  signatures : List (ValidatorId × SigBytes)
deriving DecidableEq, Repr

/-- `votes[height][round] = { voter -> (block_hash, sig, meta) }`; one round
map. -/
abbrev VoteMap := List (ValidatorId × (H256 × SigBytes × VoteMeta))

set_option synthInstance.maxSize 1024

/-- `TideFinalizer` state.  The source keys votes by nested
`BTreeMap<u64, BTreeMap<u64, VoteMap>>`; the model flattens the two keys to
one `(height, round)` pair, which is observationally identical because no
code path materializes an empty inner map without inserting a vote.
`slashed` records the `Slashing::on_double_vote` invocations in order. -/
structure TideState where
  cfg : TideConfig
  votes : List ((Nat × Nat) × VoteMap)
  replay : List (ValidatorId × ReplayState)
  slashed : List ValidatorId
deriving DecidableEq, Repr

/-- `TideFinalizer::new`. -/
def TideFinalizer_new (cfg : TideConfig) : TideState :=
  { cfg := cfg, votes := [], replay := [], slashed := [] }

/-- `check_freshness`, translated branch for branch; `now` is the value the
source reads from the system clock (0 when the clock is unavailable). -/
def check_freshness (cfg : TideConfig) (now sent_ts_ms ttl_ms : Nat) : Except TideError Unit :=
  if sent_ts_ms = 0 ∧ ttl_ms = 0 then .ok ()
  else if ttl_ms ≠ 0 ∧ cfg.max_ttl_ms < ttl_ms then .error .Replay
  else if now = 0 then .error .Replay
  else if sent_ts_ms ≠ 0 ∧
      cfg.max_clock_skew_ms < (if sent_ts_ms ≤ now then now - sent_ts_ms else sent_ts_ms - now) then
    .error .Replay
  else if sent_ts_ms ≠ 0 ∧ ttl_ms ≠ 0 ∧
      satAdd64 (satAdd64 sent_ts_ms ttl_ms) cfg.max_clock_skew_ms < now then
    .error .Replay
  else .ok ()

/-- Claim C5: for a non-legacy vote the freshness check rejects with `Replay`
exactly when the TTL exceeds the cap, or the sender timestamp is outside the
clock-skew window (boundary accepted), or the message is past
`sent + ttl + skew`; and with an unavailable clock (`now = 0`) every
non-legacy vote is rejected. -/
theorem c5_freshness_window (cfg : TideConfig) (now sent ttl : Nat)
    (hnow : now ≤ U64MAX) (hleg : ¬(sent = 0 ∧ ttl = 0)) :
    (0 < now →
      (check_freshness cfg now sent ttl = .error .Replay ↔
        (cfg.max_ttl_ms < ttl ∨
         (sent ≠ 0 ∧ cfg.max_clock_skew_ms < max (now - sent) (sent - now)) ∨
         (sent ≠ 0 ∧ ttl ≠ 0 ∧ sent + ttl + cfg.max_clock_skew_ms < now)))) ∧
    (now = 0 → check_freshness cfg now sent ttl = .error .Replay) := by
  unfold U64MAX at hnow
  unfold check_freshness satAdd64 U64MAX
  constructor
  · intro hpos
    rw [if_neg hleg]
    split_ifs with h1 h2 h3 h4 <;> simp_all <;> omega
  · intro h0
    subst h0
    rw [if_neg hleg]
    split_ifs <;> simp_all

/-- Default-style configuration used by concrete runs below (the
`TideConfig::new` defaults with `require_epoch = false`, empty validator
set). -/
def cfgD : TideConfig :=
  { validators := [], max_clock_skew_ms := 10000, max_ttl_ms := 60000, require_epoch := false }

/-- Claim C5 witness: with the default 10 s skew window, a vote stamped
10 001 ms in the future is rejected as `Replay`. -/
theorem c5_freshness_window_witness :
    check_freshness cfgD 1700000000000 1700000010001 0 = .error .Replay :=
  ((c5_freshness_window cfgD 1700000000000 1700000010001 0 (by decide) (by decide)).1
    (by decide)).mpr (by decide)

/-- `check_replay_counter`, translated branch for branch.  The source mutates
`self.replay`; here the updated map is returned on success.  Note the
update happens whenever the check passes, independent of any later
signature outcome. -/
def check_replay_counter (cfg : TideConfig) (replay : List (ValidatorId × ReplayState))
    (voter : ValidatorId) (epoch msg_counter sent_ts_ms : Nat) :
    Except TideError (List (ValidatorId × ReplayState)) :=
  if epoch = 0 ∧ msg_counter = 0 ∧ sent_ts_ms = 0 then
    if cfg.require_epoch then .error .Replay else .ok replay
  else if cfg.require_epoch ∧ epoch = 0 then .error .Replay
  else
    let upd := insertA voter
      { epoch := epoch, last_counter := msg_counter, last_sent_ts_ms := sent_ts_ms } replay
    match lookupA replay voter with
    | some prev =>
      if prev.epoch = epoch ∧ msg_counter ≠ 0 ∧ msg_counter ≤ prev.last_counter then
        .error .Replay
      else if prev.epoch = epoch ∧ sent_ts_ms ≠ 0 ∧ prev.last_sent_ts_ms ≠ 0 ∧
          sent_ts_ms < prev.last_sent_ts_ms then
        .error .Replay
      else .ok upd
    | none => .ok upd

/-- The metadata tuple sealed into a vote. -/
def metaOfVote (v : Vote) : VoteMeta :=
  { epoch := v.epoch, msg_counter := v.msg_counter, sent_ts_ms := v.sent_ts_ms, ttl_ms := v.ttl_ms }

/-- The metadata tuple a commit carries. -/
def metaOfCommit (c : Commit) : VoteMeta :=
  { epoch := c.epoch, msg_counter := c.msg_counter, sent_ts_ms := c.sent_ts_ms, ttl_ms := c.ttl_ms }

/-- Commit threshold `floor(2N/3) + 1`. -/
def thresholdOf (cfg : TideConfig) : Nat := 2 * cfg.validators.length / 3 + 1

/-- Number of recorded votes in a round map for one `(block_hash, meta)`
group — the value `try_build_commit` accumulates in its `counts` map. -/
def countGroup (rm : VoteMap) (g : H256 × VoteMeta) : Nat :=
  (rm.filter (fun e => decide (e.2.1 = g.1 ∧ e.2.2.2 = g.2))).length

/-- The distinct `(block_hash, meta)` groups present in a round map (the key
set of the `counts` map in `try_build_commit`).  A `BTreeMap` iterates keys
in sorted order while this list is in first-insertion order; the difference
is immaterial because at most one group can reach the threshold
(`countGroup_add_le_of_ne` below). -/
def groupsOf (rm : VoteMap) : List (H256 × VoteMeta) :=
  (rm.map (fun e => (e.2.1, e.2.2.2))).dedup

/-- The round map recorded for a `(height, round)` key. -/
def votesAt (st : TideState) (hr : Nat × Nat) : VoteMap :=
  (lookupA st.votes hr).getD []

/-- `try_build_commit`: group the votes of the round by `(block_hash, meta)`
and assemble a commit from the first group with at least
`floor(2N/3) + 1` votes.  The source returns `Result<Option<Commit>>` but
never errors; the model returns the option. -/
def try_build_commit (st : TideState) (height round : Nat) : Option Commit :=
  match lookupA st.votes (height, round) with
  | none => none
  | some rm =>
    match (groupsOf rm).find? (fun g => decide (thresholdOf st.cfg ≤ countGroup rm g)) with
    | none => none
    | some g =>
      some { height := height, round := round, epoch := g.2.epoch,
             msg_counter := g.2.msg_counter, sent_ts_ms := g.2.sent_ts_ms, ttl_ms := g.2.ttl_ms,
             block_hash := g.1,
             signatures := rm.filterMap (fun e =>
               if e.2.1 = g.1 ∧ e.2.2.2 = g.2 then some (e.1, e.2.2.1) else none) }

/-- `process_vote_inner`: record the vote, detect double votes, try to build
a commit.  A diverging `(block_hash, meta)` from a recorded voter invokes
the slashing hook (appends to `slashed`) and errors; an identical duplicate
is a no-op. -/
def process_vote_inner (st : TideState) (v : Vote) :
    Except TideError (Option Commit) × TideState :=
  let rm := votesAt st (v.height, v.round)
  let meta := metaOfVote v
  match lookupA rm v.voter with
  | some prev =>
    if prev.1 ≠ v.block_hash ∨ prev.2.2 ≠ meta then
      (.error .DoubleVote, { st with slashed := st.slashed ++ [v.voter] })
    else (.ok none, st)
  | none =>
    let rm2 := insertA v.voter (v.block_hash, v.signature, meta) rm
    let st2 := { st with votes := insertA (v.height, v.round) rm2 st.votes }
    (.ok (try_build_commit st2 v.height v.round), st2)

/-- `process_vote_verified`: validator-set gate, freshness, replay counter
(which commits its map update on success), public-key length gate, abstract
signature verification, then `process_vote_inner`. -/
def process_vote_verified (sigOk : Vote → Bool) (now : Nat) (st : TideState) (v : Vote) :
    Except TideError (Option Commit) × TideState :=
  if v.voter ∉ st.cfg.validators then (.error .UnknownValidator, st)
  else
    match check_freshness st.cfg now v.sent_ts_ms v.ttl_ms with
    | .error e => (.error e, st)
    | .ok _ =>
      match check_replay_counter st.cfg st.replay v.voter v.epoch v.msg_counter v.sent_ts_ms with
      | .error e => (.error e, st)
      | .ok replay2 =>
        let st1 := { st with replay := replay2 }
        if v.voter.length ≠ 32 then (.error .BadSignature, st1)
        else if ! sigOk v then (.error .BadSignature, st1)
        else process_vote_inner st1 v

/-- `process_commit_verified`: freshness, epoch gate, signer-membership gate,
threshold gate, per-signer public-key length and signature checks.  The
signer loop of the source reports the first failure; collapsing it to
`any` tests yields the same error value on every input. -/
def process_commit_verified (sigOkC : Commit → ValidatorId → Bool) (now : Nat)
    (st : TideState) (c : Commit) : Except TideError Unit × TideState :=
  match check_freshness st.cfg now c.sent_ts_ms c.ttl_ms with
  | .error e => (.error e, st)
  | .ok _ =>
    if st.cfg.require_epoch ∧ c.epoch = 0 then (.error .Replay, st)
    else if c.signatures.any (fun p => decide (p.1 ∉ st.cfg.validators)) then
      (.error .UnknownValidator, st)
    else if c.signatures.length < thresholdOf st.cfg then (.error .NotEnoughVotes, st)
    else if c.signatures.any (fun p => decide (p.1.length ≠ 32)) then (.error .BadSignature, st)
    else if c.signatures.any (fun p => ! sigOkC c p.1) then (.error .BadSignature, st)
    else (.ok (), st)

/-- Process a list of timed votes in order, returning the final state and
the per-vote results. -/
def run_votes (sigOk : Vote → Bool) : TideState → List (Nat × Vote) →
    TideState × List (Except TideError (Option Commit))
  | st, [] => (st, [])
  | st, (now, v) :: rest =>
    let p := process_vote_verified sigOk now st v
    let r := run_votes sigOk p.2 rest
    (r.1, p.1 :: r.2)

/-- Claim C10: `process_commit_verified` never modifies the finalizer state —
every accepting or rejecting path returns the state it was given, so a
verified commit is neither recorded nor marks its height and round
terminal. -/
theorem c10_process_commit_verified_frame (sigOkC : Commit → ValidatorId → Bool) (now : Nat)
    (st : TideState) (c : Commit) : (process_commit_verified sigOkC now st c).2 = st := by
  unfold process_commit_verified
  cases check_freshness st.cfg now c.sent_ts_ms c.ttl_ms with
  | error e => rfl
  | ok u => split_ifs <;> rfl

/-- On every path that returns without an error, the replay-counter check
passed and its map update is the replay map of the returned state. -/
theorem process_vote_verified_ok_replay (sigOk : Vote → Bool) (now : Nat) (st : TideState)
    (v : Vote) (res : Except TideError (Option Commit)) (st2 : TideState)
    (hrun : process_vote_verified sigOk now st v = (res, st2)) (hok : exceptOk res = true) :
    check_replay_counter st.cfg st.replay v.voter v.epoch v.msg_counter v.sent_ts_ms =
      .ok st2.replay := by
  unfold process_vote_verified at hrun
  split at hrun
  · cases hrun.symm.trans rfl
    cases hrun
    simp [exceptOk] at hok
  · split at hrun
    · cases hrun
      simp [exceptOk] at hok
    · split at hrun
      · cases hrun
        simp [exceptOk] at hok
      · rename_i replay2 heq
        split at hrun
        · cases hrun
          simp [exceptOk] at hok
        · split at hrun
          · cases hrun
            simp [exceptOk] at hok
          · unfold process_vote_inner at hrun
            simp only [] at hrun
            split at hrun
            · split at hrun
              · cases hrun
                simp [exceptOk] at hok
              · cases hrun
                exact heq
            · cases hrun
              exact heq

/-- Claim C4 (amended): the configuration never changes; errors raised before
the replay-counter update (`UnknownValidator`, freshness or counter
`Replay`) leave the whole state unchanged; every error leaves the votes map
unchanged; but on `BadSignature` and `DoubleVote` the replay map has
already been updated to the result of the replay-counter check — the
update is committed before signature verification, not after the whole
vote passes. -/
theorem c4_error_state_effects (sigOk : Vote → Bool) (now : Nat) (st : TideState) (v : Vote)
    (res : Except TideError (Option Commit)) (st2 : TideState)
    (hrun : process_vote_verified sigOk now st v = (res, st2)) :
    st2.cfg = st.cfg ∧
    ((res = .error .UnknownValidator ∨ res = .error .Replay) → st2 = st) ∧
    (∀ e, res = .error e → st2.votes = st.votes) ∧
    ((res = .error .BadSignature ∨ res = .error .DoubleVote) →
      check_replay_counter st.cfg st.replay v.voter v.epoch v.msg_counter v.sent_ts_ms =
        .ok st2.replay) := by
  unfold process_vote_verified at hrun
  split at hrun
  · cases hrun
    refine ⟨rfl, fun _ => rfl, fun e _ => rfl, fun h => ?_⟩
    rcases h with h | h <;> cases h
  · split at hrun
    · rename_i e heq
      cases hrun
      refine ⟨rfl, fun _ => rfl, fun e _ => rfl, fun h => ?_⟩
      have : e = TideError.Replay ∨ e = TideError.UnknownValidator := by
        revert heq
        unfold check_freshness
        split_ifs <;> intro hq <;> cases hq <;> simp
      rcases h with h | h <;> cases h <;> rcases this with h2 | h2 <;> cases h2
    · split at hrun
      · rename_i e heq
        cases hrun
        refine ⟨rfl, fun _ => rfl, fun e _ => rfl, fun h => ?_⟩
        have : e = TideError.Replay := by
          revert heq
          unfold check_replay_counter
          split_ifs <;> (try (intro hq; cases hq; simp)) <;>
            (cases lookupA st.replay v.voter <;> simp_all <;> split_ifs <;>
              intro hq <;> cases hq <;> simp)
        subst this
        rcases h with h | h <;> cases h
      · rename_i replay2 heq
        split at hrun
        · cases hrun
          exact ⟨rfl, by simp, fun e _ => rfl, fun _ => heq⟩
        · split at hrun
          · cases hrun
            exact ⟨rfl, by simp, fun e _ => rfl, fun _ => heq⟩
          · unfold process_vote_inner at hrun
            simp only [] at hrun
            split at hrun
            · split at hrun
              · cases hrun
                exact ⟨rfl, by simp, fun e _ => rfl, fun _ => heq⟩
              · cases hrun
                exact ⟨rfl, by simp, by simp, fun h => by rcases h with h | h <;> cases h⟩
            · cases hrun
              refine ⟨rfl, by simp, by simp, fun h => by rcases h with h | h <;> cases h⟩

/-- A 32-byte validator id (all zero bytes). -/
def val0 : ValidatorId := List.replicate 32 0

/-- Single-validator configuration with the default windows. -/
def cfg1 : TideConfig :=
  { validators := [val0], max_clock_skew_ms := 10000, max_ttl_ms := 60000, require_epoch := false }

/-- Oracle for runs whose votes are all correctly signed: the external
Ed25519 verifier accepts them. -/
def sigTrue : Vote → Bool := fun _ => true

/-- Oracle for runs whose votes all carry invalid signatures. -/
def sigFalse : Vote → Bool := fun _ => false

/-- Block hash `[1; 32]`. -/
def hash1 : H256 := List.replicate 32 1

/-- Block hash `[2; 32]`. -/
def hash2 : H256 := List.replicate 32 2

/-- A 64-byte signature placeholder (signature bytes are opaque to the
finalizer once the oracle has ruled). -/
def sig0 : SigBytes := List.replicate 64 0

/-- Vote by `val0` at height 1 round 0 for `hash1`, sealed with
`epoch = 1, msg_counter = 5` and no timestamp. -/
def voteA : Vote :=
  { height := 1, round := 0, epoch := 1, msg_counter := 5, sent_ts_ms := 0, ttl_ms := 0,
    block_hash := hash1, voter := val0, signature := sig0 }

/-- Claim C4 counterexample: a vote whose signature verification fails still
mutates the finalizer — `process_vote_verified` returns `BadSignature`, yet
the replay map changed from empty to carrying the offending triple, so the
offending message is not dropped without state effect. -/
theorem c4_error_state_effects_counterexample :
    (process_vote_verified sigFalse 0 (TideFinalizer_new cfg1) voteA).1 =
      .error .BadSignature ∧
    (process_vote_verified sigFalse 0 (TideFinalizer_new cfg1) voteA).2.replay ≠
      (TideFinalizer_new cfg1).replay := by
  exact ⟨rfl, by decide⟩

/-- Claim C4 witness: the amended theorem applied to the `BadSignature` run
above — the replay map of the error state is exactly the replay-counter
update. -/
theorem c4_error_state_effects_witness :
    check_replay_counter cfg1 [] val0 1 5 0 =
      .ok [(val0, { epoch := 1, last_counter := 5, last_sent_ts_ms := 0 })] :=
  (c4_error_state_effects sigFalse 0 (TideFinalizer_new cfg1) voteA (.error .BadSignature)
    { cfg := cfg1, votes := [],
      replay := [(val0, { epoch := 1, last_counter := 5, last_sent_ts_ms := 0 })],
      slashed := [] } rfl).2.2.2 (Or.inl rfl)

/-- Claim C2 (amended): for a voter with a recorded vote at the same height
and round, a later `process_vote_verified` call that passes the freshness,
replay-counter and signature gates returns `DoubleVote` and invokes the
slashing hook exactly once with that voter when `block_hash` or the full
metadata diverges, and returns `Ok` with no commit (and no error) when both
are identical.  (As stated over raw `process_vote_verified` the claim
fails: a resubmission with already-used nonzero `msg_counter` is cut off as
`Replay` by the replay-counter gate before the double-vote comparison.) -/
theorem c2_double_vote_detection (sigOk : Vote → Bool) (now : Nat) (st : TideState) (v : Vote)
    (replay2 : List (ValidatorId × ReplayState)) (ph : H256) (psig : SigBytes) (pm : VoteMeta)
    (hval : v.voter ∈ st.cfg.validators)
    (hfresh : check_freshness st.cfg now v.sent_ts_ms v.ttl_ms = .ok ())
    (hreplay : check_replay_counter st.cfg st.replay v.voter v.epoch v.msg_counter v.sent_ts_ms
      = .ok replay2)
    (hlen : v.voter.length = 32)
    (hsig : sigOk v = true)
    (hprev : lookupA (votesAt st (v.height, v.round)) v.voter = some (ph, psig, pm)) :
    ((ph ≠ v.block_hash ∨ pm ≠ metaOfVote v) →
      process_vote_verified sigOk now st v =
        (.error .DoubleVote,
         { st with replay := replay2, slashed := st.slashed ++ [v.voter] })) ∧
    ((ph = v.block_hash ∧ pm = metaOfVote v) →
      process_vote_verified sigOk now st v = (.ok none, { st with replay := replay2 })) := by
  have hbase : ∀ r, process_vote_verified sigOk now st v = r ↔
      process_vote_inner { st with replay := replay2 } v = r := by
    intro r
    unfold process_vote_verified
    rw [if_neg (by simpa using hval), hfresh, hreplay]
    simp [hlen, hsig]
  have hvotes : votesAt { st with replay := replay2 } (v.height, v.round) =
      votesAt st (v.height, v.round) := rfl
  constructor
  · intro hne
    rw [hbase]
    unfold process_vote_inner
    simp only [hvotes, hprev]
    rw [if_pos (by simpa using hne)]
  · intro heq
    rw [hbase]
    unfold process_vote_inner
    simp only [hvotes, hprev]
    rw [if_neg (by simp [heq.1, heq.2])]

/-- Second vote by `val0` at the same height and round for a different hash
with identical metadata (`epoch = 1, msg_counter = 5`). -/
def voteB : Vote :=
  { height := 1, round := 0, epoch := 1, msg_counter := 5, sent_ts_ms := 0, ttl_ms := 0,
    block_hash := hash2, voter := val0, signature := sig0 }

/-- Claim C2 counterexample: after `voteA` is recorded, the conflicting
`voteB` (different `block_hash`, same sealed metadata) does not return
`DoubleVote` through `process_vote_verified` — the replay-counter gate
rejects its reused `msg_counter = 5` as `Replay` first, and the slashing
hook is never invoked. -/
theorem c2_double_vote_detection_counterexample :
    ((run_votes sigTrue (TideFinalizer_new cfg1) [(0, voteA), (0, voteB)]).2.drop 1 =
      [.error .Replay]) ∧
    (run_votes sigTrue (TideFinalizer_new cfg1) [(0, voteA), (0, voteB)]).1.slashed = [] :=
  ⟨rfl, rfl⟩

/-- The metadata of `voteA` as recorded in the vote map. -/
def metaA : VoteMeta := metaOfVote voteA

/-- A finalizer state in which `voteA` is already recorded and the replay
state carries its counter. -/
def stRec : TideState :=
  { cfg := cfg1,
    votes := [((1, 0), [(val0, (hash1, sig0, metaA))])],
    replay := [(val0, { epoch := 1, last_counter := 5, last_sent_ts_ms := 0 })],
    slashed := [] }

/-- Conflicting vote that passes the replay gate: fresh `msg_counter = 6`,
different `block_hash`. -/
def voteC : Vote :=
  { height := 1, round := 0, epoch := 1, msg_counter := 6, sent_ts_ms := 0, ttl_ms := 0,
    block_hash := hash2, voter := val0, signature := sig0 }

/-- Claim C2 witness: the amended theorem applied to the recorded state —
the gate-passing conflicting vote returns `DoubleVote` and appends exactly
one slashing event for `val0`. -/
theorem c2_double_vote_detection_witness :
    process_vote_verified sigTrue 0 stRec voteC =
      (.error .DoubleVote,
       { cfg := cfg1,
         votes := [((1, 0), [(val0, (hash1, sig0, metaA))])],
         replay := [(val0, { epoch := 1, last_counter := 6, last_sent_ts_ms := 0 })],
         slashed := [val0] }) :=
  (c2_double_vote_detection sigTrue 0 stRec voteC
      [(val0, { epoch := 1, last_counter := 6, last_sent_ts_ms := 0 })] hash1 sig0 metaA
      (by decide) rfl rfl (by decide) rfl rfl).1 (by decide)

/-- A passing replay-counter check on a voter whose stored epoch matches the
vote strictly advances the stored counter (when the vote carries one) and
never regresses a carried timestamp; the stored triple is then replaced by
the vote values. -/
theorem check_replay_counter_ok_mono (cfg : TideConfig)
    (replay : List (ValidatorId × ReplayState)) (voter : ValidatorId)
    (epoch c ts : Nat) (prev : ReplayState) (replay2 : List (ValidatorId × ReplayState))
    (hprev : lookupA replay voter = some prev) (hep : prev.epoch = epoch)
    (hnl : ¬(epoch = 0 ∧ c = 0 ∧ ts = 0))
    (hok : check_replay_counter cfg replay voter epoch c ts = .ok replay2) :
    (c ≠ 0 → prev.last_counter < c) ∧
    (ts ≠ 0 → prev.last_sent_ts_ms ≠ 0 → prev.last_sent_ts_ms ≤ ts) ∧
    replay2 = insertA voter { epoch := epoch, last_counter := c, last_sent_ts_ms := ts } replay := by
  unfold check_replay_counter at hok
  rw [if_neg hnl] at hok
  by_cases hre : cfg.require_epoch ∧ epoch = 0
  · rw [if_pos hre] at hok
    cases hok
  · rw [if_neg hre] at hok
    simp only [hprev] at hok
    split_ifs at hok with h1 h2
    cases hok
    refine ⟨fun hc => ?_, fun hts hpts => ?_, rfl⟩
    · rcases Nat.lt_or_ge prev.last_counter c with h | h
      · exact h
      · exact absurd ⟨hep, hc, h⟩ h1
    · rcases Nat.lt_or_ge ts prev.last_sent_ts_ms with h | h
      · exact absurd ⟨hep, hts, hpts, h⟩ h2
      · exact h

/-- Claim C3 (amended): when a non-legacy vote is accepted (no error) and the
stored replay epoch for its voter equals the vote epoch, a nonzero
`msg_counter` strictly exceeds the stored counter, a nonzero `sent_ts_ms`
does not regress a nonzero stored timestamp, and afterwards the stored
triple is the vote triple — so successive accepted votes with nonzero
counters and no interleaved replay-state overwrite have strictly
increasing counters.  (As stated over any two accepted votes the claim
fails: a zero `msg_counter` bypasses the counter check and
accepted votes overwrite the stored triple even across epochs.) -/
theorem c3_replay_monotonic (sigOk : Vote → Bool) (now : Nat) (st : TideState) (v : Vote)
    (prev : ReplayState) (res : Except TideError (Option Commit)) (st2 : TideState)
    (hprev : lookupA st.replay v.voter = some prev)
    (hep : prev.epoch = v.epoch)
    (hnl : ¬(v.epoch = 0 ∧ v.msg_counter = 0 ∧ v.sent_ts_ms = 0))
    (hrun : process_vote_verified sigOk now st v = (res, st2))
    (hok : exceptOk res = true) :
    (v.msg_counter ≠ 0 → prev.last_counter < v.msg_counter) ∧
    (v.sent_ts_ms ≠ 0 → prev.last_sent_ts_ms ≠ 0 → prev.last_sent_ts_ms ≤ v.sent_ts_ms) ∧
    lookupA st2.replay v.voter =
      some { epoch := v.epoch, last_counter := v.msg_counter, last_sent_ts_ms := v.sent_ts_ms } := by
  have hrep := process_vote_verified_ok_replay sigOk now st v res st2 hrun hok
  have hmono := check_replay_counter_ok_mono st.cfg st.replay v.voter v.epoch v.msg_counter
    v.sent_ts_ms prev st2.replay hprev hep hnl hrep
  exact ⟨hmono.1, hmono.2.1, by rw [hmono.2.2]; exact lookupA_insertA_self _ _ _⟩

/-- Vote by `val0` with `msg_counter = 0` but sealed `epoch = 1` and a
timestamp: non-legacy, yet exempt from the strict counter check. -/
def voteZ1 : Vote :=
  { height := 1, round := 0, epoch := 1, msg_counter := 0, sent_ts_ms := 1000, ttl_ms := 0,
    block_hash := hash1, voter := val0, signature := sig0 }

/-- Same as `voteZ1` at the next round. -/
def voteZ2 : Vote :=
  { height := 1, round := 1, epoch := 1, msg_counter := 0, sent_ts_ms := 1000, ttl_ms := 0,
    block_hash := hash1, voter := val0, signature := sig0 }

/-- Claim C3 counterexample: two non-legacy votes of the same voter and epoch
with `msg_counter = 0` are both accepted by `process_vote_verified`, so the
accepted counters 0, 0 are not strictly increasing. -/
theorem c3_replay_monotonic_counterexample :
    ((run_votes sigTrue (TideFinalizer_new cfg1) [(1000, voteZ1), (1000, voteZ2)]).2.all
      exceptOk = true) ∧
    voteZ1.voter = voteZ2.voter ∧ voteZ1.epoch = voteZ2.epoch ∧ voteZ1.epoch ≠ 0 ∧
    ¬ voteZ1.msg_counter < voteZ2.msg_counter :=
  ⟨rfl, rfl, rfl, by decide, by decide⟩

/-- Accepted follow-up vote by `val0` at round 1 with fresh counter 6. -/
def voteD : Vote :=
  { height := 1, round := 1, epoch := 1, msg_counter := 6, sent_ts_ms := 0, ttl_ms := 0,
    block_hash := hash2, voter := val0, signature := sig0 }

/-- The commit `voteD` triggers in the single-validator configuration. -/
def commitD : Commit :=
  { height := 1, round := 1, epoch := 1, msg_counter := 6, sent_ts_ms := 0, ttl_ms := 0,
    block_hash := hash2, signatures := [(val0, sig0)] }

/-- The state after `voteD` is accepted on top of `stRec`. -/
def stRecD : TideState :=
  { cfg := cfg1,
    votes := [((1, 0), [(val0, (hash1, sig0, metaA))]),
              ((1, 1), [(val0, (hash2, sig0, metaOfVote voteD))])],
    replay := [(val0, { epoch := 1, last_counter := 6, last_sent_ts_ms := 0 })],
    slashed := [] }

/-- Claim C3 witness: the amended theorem applied to the recorded state and
the gate-passing accepted vote with counter 6 — the stored counter 5
strictly advances and the stored triple becomes the vote triple. -/
theorem c3_replay_monotonic_witness :
    ({ epoch := 1, last_counter := 5, last_sent_ts_ms := 0 } : ReplayState).last_counter
      < voteD.msg_counter ∧
    lookupA stRecD.replay voteD.voter =
      some { epoch := 1, last_counter := 6, last_sent_ts_ms := 0 } := by
  have h := c3_replay_monotonic sigTrue 0 stRec voteD
    { epoch := 1, last_counter := 5, last_sent_ts_ms := 0 } (.ok (some commitD)) stRecD
    rfl rfl (by decide) rfl rfl
  exact ⟨h.1 (by decide), h.2.2⟩

/-! ## Commit agreement (claim C1)

The source calls `try_build_commit` after every newly recorded vote and keeps
no terminal marker for a committed `(height, round)`, so a further vote from
a fresh voter re-emits a commit.  What does hold — and what the repository
test `prop_no_two_commits_same_height_round` actually asserts — is that all
commits emitted for one `(height, round)` agree, because two distinct vote
groups can never both reach `floor(2N/3) + 1` out of at most `N` recorded
voters. -/

/-- Votes recorded for group `g` at key `hr` of a state. -/
def countGroupAt (st : TideState) (hr : Nat × Nat) (g : H256 × VoteMeta) : Nat :=
  countGroup (votesAt st hr) g

/-- Reachable-state invariant: every round map has distinct voters, all drawn
from the configured validator set. -/
def VotesInv (st : TideState) : Prop :=
  ∀ hr : Nat × Nat, ((votesAt st hr).map Prod.fst).Nodup ∧
    ∀ e ∈ votesAt st hr, e.1 ∈ st.cfg.validators

theorem countGroup_append_le (rm : VoteMap) (e : ValidatorId × (H256 × SigBytes × VoteMeta))
    (g : H256 × VoteMeta) : countGroup rm g ≤ countGroup (rm ++ [e]) g := by
  unfold countGroup
  rw [List.filter_append, List.length_append]
  exact Nat.le_add_right _ _

theorem countGroup_add_le_of_ne (rm : VoteMap) (g1 g2 : H256 × VoteMeta) (hne : g1 ≠ g2) :
    countGroup rm g1 + countGroup rm g2 ≤ rm.length := by
  induction rm with
  | nil => simp [countGroup]
  | cons e tl ih =>
    unfold countGroup at ih ⊢
    by_cases h1 : (e.2.1 = g1.1 ∧ e.2.2.2 = g1.2)
    · by_cases h2 : (e.2.1 = g2.1 ∧ e.2.2.2 = g2.2)
      · refine absurd ?_ hne
        rw [Prod.ext_iff]
        exact ⟨h1.1 ▸ h2.1, h1.2 ▸ h2.2⟩
      · rw [List.filter_cons, List.filter_cons, if_pos (by simpa using h1),
          if_neg (by simpa using h2)]
        simp only [List.length_cons]
        omega
    · by_cases h2 : (e.2.1 = g2.1 ∧ e.2.2.2 = g2.2)
      · rw [List.filter_cons, List.filter_cons, if_neg (by simpa using h1),
          if_pos (by simpa using h2)]
        simp only [List.length_cons]
        omega
      · rw [List.filter_cons, List.filter_cons, if_neg (by simpa using h1),
          if_neg (by simpa using h2)]
        simp only [List.length_cons]
        omega

/-- Two groups cannot both reach the threshold in a round map whose voters
are distinct members of the validator set: `2 · (floor(2N/3) + 1) > N`. -/
theorem group_unique (cfg : TideConfig) (rm : VoteMap)
    (hkeys : (rm.map Prod.fst).Nodup) (hsub : ∀ e ∈ rm, e.1 ∈ cfg.validators)
    (g1 g2 : H256 × VoteMeta)
    (h1 : thresholdOf cfg ≤ countGroup rm g1) (h2 : thresholdOf cfg ≤ countGroup rm g2) :
    g1 = g2 := by
  by_contra hne
  have hsum := countGroup_add_le_of_ne rm g1 g2 hne
  have hsubkeys : rm.map Prod.fst ⊆ cfg.validators := by
    intro x hx
    rcases List.mem_map.mp hx with ⟨e, he, hfe⟩
    exact hfe ▸ hsub e he
  have hlen : rm.length ≤ cfg.validators.length := by
    have := (hkeys.subperm hsubkeys).length_le
    rwa [List.length_map] at this
  unfold thresholdOf at h1 h2
  omega

theorem votesAt_set_votes (st : TideState) (w : List ((Nat × Nat) × VoteMap)) (hr : Nat × Nat) :
    votesAt { st with votes := w } hr = (lookupA w hr).getD [] := rfl

theorem lookupA_insert_getD (stv : List ((Nat × Nat) × VoteMap)) (hr0 hr : Nat × Nat)
    (rm2 : VoteMap) :
    ((lookupA (insertA hr0 rm2 stv) hr).getD []) =
      if hr = hr0 then rm2 else (lookupA stv hr).getD [] := by
  by_cases h : hr = hr0
  · subst h
    rw [lookupA_insertA_self]
    simp
  · rw [lookupA_insertA_ne hr0 hr rm2 stv (fun hh => h hh.symm)]
    simp [h]

/-- State-shape of one `process_vote_verified` step: either the vote maps are
untouched, or exactly one new voter entry is appended to the round map of
the vote coordinates. -/
theorem process_vote_verified_votes_char (sigOk : Vote → Bool) (now : Nat) (st : TideState)
    (v : Vote) :
    (process_vote_verified sigOk now st v).2.votes = st.votes ∨
    (v.voter ∈ st.cfg.validators ∧
     lookupA (votesAt st (v.height, v.round)) v.voter = none ∧
     (process_vote_verified sigOk now st v).2.votes =
       insertA (v.height, v.round)
         (insertA v.voter (v.block_hash, v.signature, metaOfVote v)
           (votesAt st (v.height, v.round)))
         st.votes) := by
  unfold process_vote_verified
  split
  · exact Or.inl rfl
  · rename_i hmem
    split
    · exact Or.inl rfl
    · split
      · exact Or.inl rfl
      · split
        · exact Or.inl rfl
        · split
          · exact Or.inl rfl
          · unfold process_vote_inner
            simp only []
            split
            · split
              · exact Or.inl rfl
              · exact Or.inl rfl
            · rename_i hnone
              exact Or.inr ⟨by simpa using hmem, hnone, rfl⟩

/-- One step never alters the configuration. -/
theorem process_vote_verified_cfg (sigOk : Vote → Bool) (now : Nat) (st : TideState) (v : Vote) :
    (process_vote_verified sigOk now st v).2.cfg = st.cfg := by
  unfold process_vote_verified
  split
  · rfl
  · split
    · rfl
    · split
      · rfl
      · split
        · rfl
        · split
          · rfl
          · unfold process_vote_inner
            simp only []
            split
            · split
              · rfl
              · rfl
            · rfl

/-- Group tallies never decrease across a step. -/
theorem step_countGroup_mono (sigOk : Vote → Bool) (now : Nat) (st : TideState) (v : Vote)
    (hr : Nat × Nat) (g : H256 × VoteMeta) :
    countGroupAt st hr g ≤ countGroupAt (process_vote_verified sigOk now st v).2 hr g := by
  rcases process_vote_verified_votes_char sigOk now st v with h | ⟨hval, hnone, h⟩
  · unfold countGroupAt votesAt
    rw [h]
  · unfold countGroupAt
    have hv : votesAt (process_vote_verified sigOk now st v).2 hr =
        if hr = (v.height, v.round) then
          insertA v.voter (v.block_hash, v.signature, metaOfVote v)
            (votesAt st (v.height, v.round))
        else votesAt st hr := by
      show (lookupA (process_vote_verified sigOk now st v).2.votes hr).getD [] = _
      rw [h, lookupA_insert_getD]
      rfl
    rw [hv]
    by_cases hcase : hr = (v.height, v.round)
    · rw [if_pos hcase, hcase,
        insertA_of_lookupA_none v.voter (v.block_hash, v.signature, metaOfVote v) _ hnone]
      exact countGroup_append_le _ _ _
    · rw [if_neg hcase]

/-- The reachable-state invariant is preserved by a step. -/
theorem step_inv (sigOk : Vote → Bool) (now : Nat) (st : TideState) (v : Vote)
    (hinv : VotesInv st) : VotesInv (process_vote_verified sigOk now st v).2 := by
  have hcfg := process_vote_verified_cfg sigOk now st v
  rcases process_vote_verified_votes_char sigOk now st v with h | ⟨hval, hnone, h⟩
  · intro hr
    have hsame : votesAt (process_vote_verified sigOk now st v).2 hr = votesAt st hr := by
      show (lookupA (process_vote_verified sigOk now st v).2.votes hr).getD [] = _
      rw [h]
      rfl
    rw [hsame, hcfg]
    exact hinv hr
  · intro hr
    have hv : votesAt (process_vote_verified sigOk now st v).2 hr =
        if hr = (v.height, v.round) then
          insertA v.voter (v.block_hash, v.signature, metaOfVote v)
            (votesAt st (v.height, v.round))
        else votesAt st hr := by
      show (lookupA (process_vote_verified sigOk now st v).2.votes hr).getD [] = _
      rw [h, lookupA_insert_getD]
      rfl
    rw [hv, hcfg]
    by_cases hcase : hr = (v.height, v.round)
    · rw [if_pos hcase,
        insertA_of_lookupA_none v.voter (v.block_hash, v.signature, metaOfVote v) _ hnone]
      have hkeys := (hinv (v.height, v.round)).1
      have hmem := (hinv (v.height, v.round)).2
      have hnotin : v.voter ∉ (votesAt st (v.height, v.round)).map Prod.fst :=
        (lookupA_eq_none_iff _ _).mp hnone
      constructor
      · rw [List.map_append]
        simp only [List.map_cons, List.map_nil]
        rw [List.nodup_append]
        exact ⟨hkeys, List.nodup_singleton _, by
          intro x hx hx2
          simp only [List.mem_singleton] at hx2
          exact hnotin (hx2 ▸ hx)⟩
      · intro e he
        rcases List.mem_append.mp he with he | he
        · exact hmem e he
        · simp only [List.mem_singleton] at he
          rw [he]
          exact hval
    · rw [if_neg hcase]
      exact hinv hr

/-- The configuration is constant along a run. -/
theorem run_votes_cfg (sigOk : Vote → Bool) (inputs : List (Nat × Vote)) (st : TideState) :
    (run_votes sigOk st inputs).1.cfg = st.cfg := by
  induction inputs generalizing st with
  | nil => rfl
  | cons p rest ih =>
    show (run_votes sigOk (process_vote_verified sigOk p.1 st p.2).2 rest).1.cfg = st.cfg
    rw [ih, process_vote_verified_cfg]

/-- The invariant holds along a run. -/
theorem run_votes_inv (sigOk : Vote → Bool) (inputs : List (Nat × Vote)) (st : TideState)
    (hinv : VotesInv st) : VotesInv (run_votes sigOk st inputs).1 := by
  induction inputs generalizing st with
  | nil => exact hinv
  | cons p rest ih =>
    exact ih _ (step_inv sigOk p.1 st p.2 hinv)

/-- Group tallies never decrease along a run. -/
theorem run_votes_countGroup_mono (sigOk : Vote → Bool) (inputs : List (Nat × Vote))
    (st : TideState) (hr : Nat × Nat) (g : H256 × VoteMeta) :
    countGroupAt st hr g ≤ countGroupAt (run_votes sigOk st inputs).1 hr g := by
  induction inputs generalizing st with
  | nil => exact Nat.le_refl _
  | cons p rest ih =>
    exact Nat.le_trans (step_countGroup_mono sigOk p.1 st p.2 hr g) (ih _)

/-- The state produced by the recording branch of `process_vote_inner`. -/
def insert_state (st1 : TideState) (v : Vote) : TideState :=
  { st1 with votes := (insertA (v.height, v.round)
      (insertA v.voter (v.block_hash, v.signature, metaOfVote v)
        (votesAt st1 (v.height, v.round)))
      st1.votes) }

/-- When `try_build_commit` yields a commit, the commit carries the queried
coordinates and its `(block_hash, meta)` group has reached the threshold in
the stored round map. -/
theorem try_build_commit_some (st : TideState) (height round : Nat) (c : Commit)
    (h : try_build_commit st height round = some c) :
    c.height = height ∧ c.round = round ∧
    thresholdOf st.cfg ≤ countGroupAt st (height, round) (c.block_hash, metaOfCommit c) := by
  unfold try_build_commit at h
  cases hlook : lookupA st.votes (height, round) with
  | none =>
    rw [hlook] at h
    simp at h
  | some rm =>
    rw [hlook] at h
    simp only [] at h
    cases hfind : List.find? (fun g => decide (thresholdOf st.cfg ≤ countGroup rm g))
        (groupsOf rm) with
    | none =>
      rw [hfind] at h
      simp at h
    | some g =>
      rw [hfind] at h
      simp only [Option.some.injEq] at h
      have hp := List.find?_some hfind
      rw [decide_eq_true_eq] at hp
      subst h
      refine ⟨rfl, rfl, ?_⟩
      show thresholdOf st.cfg ≤ countGroup ((lookupA st.votes (height, round)).getD []) _
      rw [hlook]
      exact hp

/-- When `process_vote_inner` emits a commit, the commit carries the vote
coordinates and its `(block_hash, meta)` group has reached the threshold in
the updated round map. -/
theorem inner_emit (st1 : TideState) (v : Vote) (c : Commit)
    (h : (process_vote_inner st1 v).1 = .ok (some c)) :
    c.height = v.height ∧ c.round = v.round ∧
    thresholdOf st1.cfg ≤
      countGroupAt (process_vote_inner st1 v).2 (v.height, v.round)
        (c.block_hash, metaOfCommit c) := by
  cases hlook : lookupA (votesAt st1 (v.height, v.round)) v.voter with
  | some prev =>
    have heq : (process_vote_inner st1 v).1 =
        (if prev.1 ≠ v.block_hash ∨ prev.2.2 ≠ metaOfVote v then
          Except.error TideError.DoubleVote else Except.ok none) := by
      unfold process_vote_inner
      simp only [hlook]
      split_ifs <;> rfl
    rw [heq] at h
    split_ifs at h <;> simp at h
  | none =>
    have heq : process_vote_inner st1 v =
        (Except.ok (try_build_commit (insert_state st1 v) v.height v.round),
         insert_state st1 v) := by
      unfold process_vote_inner insert_state
      simp only [hlook]
    rw [heq] at h ⊢
    have htb : try_build_commit (insert_state st1 v) v.height v.round = some c := by
      simpa using h
    have hres := try_build_commit_some (insert_state st1 v) v.height v.round c htb
    exact ⟨hres.1, hres.2.1, hres.2.2⟩

/-- A step either fails (no commit in the result) or behaves as
`process_vote_inner` on the state with the updated replay map. -/
theorem process_vote_verified_result_char (sigOk : Vote → Bool) (now : Nat) (st : TideState)
    (v : Vote) :
    exceptOk (process_vote_verified sigOk now st v).1 = false ∨
    (∃ replay2, process_vote_verified sigOk now st v =
      process_vote_inner { st with replay := replay2 } v) := by
  unfold process_vote_verified
  split
  · exact Or.inl rfl
  · split
    · exact Or.inl rfl
    · split
      · exact Or.inl rfl
      · rename_i replay2 heq
        split
        · exact Or.inl rfl
        · split
          · exact Or.inl rfl
          · exact Or.inr ⟨replay2, rfl⟩

/-- When a verified step emits a commit, the commit carries the vote
coordinates and its group has reached the threshold in the successor
state. -/
theorem emit_threshold (sigOk : Vote → Bool) (now : Nat) (st : TideState) (v : Vote) (c : Commit)
    (h : (process_vote_verified sigOk now st v).1 = .ok (some c)) :
    thresholdOf st.cfg ≤
      countGroupAt (process_vote_verified sigOk now st v).2 (c.height, c.round)
        (c.block_hash, metaOfCommit c) := by
  rcases process_vote_verified_result_char sigOk now st v with hko | ⟨replay2, heq⟩
  · rw [h] at hko
    simp [exceptOk] at hko
  · rw [heq] at h ⊢
    have hres := inner_emit { st with replay := replay2 } v c h
    rw [hres.1, hres.2.1]
    exact hres.2.2

/-- Every commit in the result list of a run has a threshold-reaching group
at its coordinates in the final state. -/
theorem run_votes_emit (sigOk : Vote → Bool) (inputs : List (Nat × Vote)) (st : TideState)
    (c : Commit) (hc : (Except.ok (some c)) ∈ (run_votes sigOk st inputs).2) :
    thresholdOf st.cfg ≤
      countGroupAt (run_votes sigOk st inputs).1 (c.height, c.round)
        (c.block_hash, metaOfCommit c) := by
  induction inputs generalizing st with
  | nil => simp [run_votes] at hc
  | cons p rest ih =>
    have hshape : run_votes sigOk st (p :: rest) =
        ((run_votes sigOk (process_vote_verified sigOk p.1 st p.2).2 rest).1,
         (process_vote_verified sigOk p.1 st p.2).1 ::
           (run_votes sigOk (process_vote_verified sigOk p.1 st p.2).2 rest).2) := rfl
    rw [hshape] at hc ⊢
    simp only [List.mem_cons] at hc
    rcases hc with hc | hc
    · have hth := emit_threshold sigOk p.1 st p.2 c hc.symm
      exact Nat.le_trans hth
        (run_votes_countGroup_mono sigOk rest (process_vote_verified sigOk p.1 st p.2).2
          (c.height, c.round) (c.block_hash, metaOfCommit c))
    · have := ih (process_vote_verified sigOk p.1 st p.2).2 hc
      rwa [process_vote_verified_cfg] at this

/-- Claim C1 (amended): with a duplicate-free validator set, all commits a
run of `process_vote_verified` calls emits for one `(height, round)` carry
the same `block_hash` and meta — the group of the first to reach
`floor(2N/3) + 1` votes.  (As stated the claim fails: there is no terminal
marker, so a sixth fresh voter after a commit makes `try_build_commit`
emit a second, identical-hash commit.) -/
theorem c1_commit_agreement (sigOk : Vote → Bool) (cfg : TideConfig)
    (hnd : cfg.validators.Nodup) (inputs : List (Nat × Vote)) (c c2 : Commit)
    (hc : (Except.ok (some c)) ∈ (run_votes sigOk (TideFinalizer_new cfg) inputs).2)
    (hc2 : (Except.ok (some c2)) ∈ (run_votes sigOk (TideFinalizer_new cfg) inputs).2)
    (hh : c.height = c2.height) (hr : c.round = c2.round) :
    c.block_hash = c2.block_hash ∧ metaOfCommit c = metaOfCommit c2 := by
  have hinv0 : VotesInv (TideFinalizer_new cfg) := by
    intro hr
    constructor
    · show ((List.nil.map Prod.fst).Nodup)
      simp
    · intro e he
      simp [votesAt, TideFinalizer_new, lookupA] at he
  have hfin_inv := run_votes_inv sigOk inputs (TideFinalizer_new cfg) hinv0
  have hfin_cfg := run_votes_cfg sigOk inputs (TideFinalizer_new cfg)
  have h1 := run_votes_emit sigOk inputs (TideFinalizer_new cfg) c hc
  have h2 := run_votes_emit sigOk inputs (TideFinalizer_new cfg) c2 hc2
  rw [← hh, ← hr] at h2
  have hinvhr := hfin_inv (c.height, c.round)
  have hgroups := group_unique cfg
    (votesAt (run_votes sigOk (TideFinalizer_new cfg) inputs).1 (c.height, c.round))
    hinvhr.1
    (by
      intro e he
      have := hinvhr.2 e he
      rwa [hfin_cfg] at this)
    (c.block_hash, metaOfCommit c) (c2.block_hash, metaOfCommit c2) h1 h2
  exact ⟨congrArg Prod.fst hgroups, congrArg Prod.snd hgroups⟩

/-- Validator id `[i, 0, ..., 0]` (32 bytes), as in the end-to-end scenario. -/
def valN (i : Nat) : ValidatorId := i :: List.replicate 31 0

/-- Seven-validator configuration (threshold 5) with default windows. -/
def cfg7 : TideConfig :=
  { validators := [valN 0, valN 1, valN 2, valN 3, valN 4, valN 5, valN 6],
    max_clock_skew_ms := 10000, max_ttl_ms := 60000, require_epoch := false }

/-- The scenario timestamp. -/
def ts7 : Nat := 1700000000000

/-- Vote of validator `i` for `hash1` at height 1 round 0 with the scenario
metadata. -/
def voteN (i : Nat) : Vote :=
  { height := 1, round := 0, epoch := 1, msg_counter := 1, sent_ts_ms := ts7, ttl_ms := 60000,
    block_hash := hash1, voter := valN i, signature := sig0 }

/-- Commit emitted? -/
def isCommitRes : Except TideError (Option Commit) → Bool
  | .ok (some _) => true
  | _ => false

/-- The six-vote scenario run: `V0..V5` all vote identically. -/
def run7 : TideState × List (Except TideError (Option Commit)) :=
  run_votes sigTrue (TideFinalizer_new cfg7)
    [(ts7, voteN 0), (ts7, voteN 1), (ts7, voteN 2), (ts7, voteN 3), (ts7, voteN 4),
     (ts7, voteN 5)]

/-- Claim C1 counterexample: in the `N = 7` scenario each voter votes once,
yet the run emits two commits — the 5th vote reaches the threshold and the
6th (a fresh voter, not a duplicate) makes `try_build_commit` fire again,
so more than one commit is emitted for the same `(height, round)`. -/
theorem c1_commit_agreement_counterexample :
    (run7.2.filter isCommitRes).length = 2 := rfl

/-- The commit emitted by the 5th vote. -/
def commit7A : Commit :=
  { height := 1, round := 0, epoch := 1, msg_counter := 1, sent_ts_ms := ts7, ttl_ms := 60000,
    block_hash := hash1,
    signatures := [(valN 0, sig0), (valN 1, sig0), (valN 2, sig0), (valN 3, sig0),
      (valN 4, sig0)] }

/-- The commit emitted by the 6th vote. -/
def commit7B : Commit :=
  { height := 1, round := 0, epoch := 1, msg_counter := 1, sent_ts_ms := ts7, ttl_ms := 60000,
    block_hash := hash1,
    signatures := [(valN 0, sig0), (valN 1, sig0), (valN 2, sig0), (valN 3, sig0),
      (valN 4, sig0), (valN 5, sig0)] }

/-- Claim C1 witness: the agreement theorem applied to the two commits of
the scenario run — they carry the same block hash and meta. -/
theorem c1_commit_agreement_witness :
    commit7A.block_hash = commit7B.block_hash ∧
    metaOfCommit commit7A = metaOfCommit commit7B := by
  have hres : run7.2 =
      [.ok none, .ok none, .ok none, .ok none, .ok (some commit7A), .ok (some commit7B)] := rfl
  refine c1_commit_agreement sigTrue cfg7 (by decide)
    [(ts7, voteN 0), (ts7, voteN 1), (ts7, voteN 2), (ts7, voteN 3), (ts7, voteN 4),
     (ts7, voteN 5)] commit7A commit7B ?_ ?_ rfl rfl
  · show Except.ok (some commit7A) ∈ run7.2
    rw [hres]
    simp
  · show Except.ok (some commit7B) ∈ run7.2
    rw [hres]
    simp

/-! ## Sorted Merkle tree (`src/core/state/merkle.rs`)

The tree is parametric in the hash `H : List Nat → List Nat`, standing for
the external `ring` SHA-256 behind `h(data)`; every theorem below holds for
an arbitrary `H`.  The `while level.len() > 1` loops become fuel recursion
with fuel `pairs.len()`, which the halving of the level length makes
sufficient (`rootIter_fold` below). -/

/-- Byte string `"Amunchain-State-Leaf-v1"` (`LEAF_DOMAIN`). -/
def LEAF_DOMAIN : List Nat :=
  [65, 109, 117, 110, 99, 104, 97, 105, 110, 45, 83, 116, 97, 116, 101, 45, 76, 101, 97, 102,
   45, 118, 49]

/-- Byte string `"Amunchain-State-Node-v1"` (`NODE_DOMAIN`). -/
def NODE_DOMAIN : List Nat :=
  [65, 109, 117, 110, 99, 104, 97, 105, 110, 45, 83, 116, 97, 116, 101, 45, 78, 111, 100, 101,
   45, 118, 49]

/-- The all-zero 32-byte hash. -/
def zero32 : List Nat := List.replicate 32 0

/-- `hash_leaf`: `H(LEAF_DOMAIN || H(key) || H(value))`. -/
def hash_leaf (H : List Nat → List Nat) (key value : List Nat) : List Nat :=
  H (LEAF_DOMAIN ++ H key ++ H value)

/-- `hash_node`: `H(NODE_DOMAIN || left || right)`. -/
def hash_node (H : List Nat → List Nat) (left right : List Nat) : List Nat :=
  H (NODE_DOMAIN ++ left ++ right)

/-- Side of sibling in proof (`Side`). -/
inductive Side
  | Left
  | Right
deriving DecidableEq, Repr

/-- One proof item (`ProofItem`). -/
structure ProofItem where
  side : Side
  sibling : List Nat
deriving DecidableEq, Repr

/-- Merkle inclusion proof (`MerkleProof`). -/
structure MerkleProof where
  leaf : List Nat
  path : List ProofItem
deriving DecidableEq, Repr

/-- One pass of the `while` body over a level: pair up, promoting a lone last
element by hashing it with itself. -/
def nextLevel (H : List Nat → List Nat) : List (List Nat) → List (List Nat)
  | [] => []
  | [x] => [hash_node H x x]
  | x :: y :: rest => hash_node H x y :: nextLevel H rest

/-- Fuel-bounded rendering of `while level.len() > 1 { level = next }`. -/
def rootIter (H : List Nat → List Nat) : Nat → List (List Nat) → List (List Nat)
  | 0, level => level
  | fuel + 1, level => if level.length ≤ 1 then level else rootIter H fuel (nextLevel H level)

/-- `merkle_root_sorted`: zero hash for the empty list, otherwise the
bottom-up fold of the leaf level. -/
def merkle_root_sorted (H : List Nat → List Nat) (pairs : List (List Nat × List Nat)) :
    List Nat :=
  if pairs.isEmpty then zero32
  else (rootIter H pairs.length (pairs.map (fun kv => hash_leaf H kv.1 kv.2))).headD zero32

/-- The proof-path loop of `merkle_proof_sorted`, fuel-bounded like
`rootIter` and walking the same levels. -/
def proofIter (H : List Nat → List Nat) : Nat → List (List Nat) → Nat → List ProofItem
  | 0, _, _ => []
  | fuel + 1, level, idx =>
    if level.length ≤ 1 then []
    else
      let sibIdx := if idx % 2 = 1 then idx - 1 else idx + 1
      let sibling := if sibIdx < level.length then level.getD sibIdx zero32
        else level.getD idx zero32
      { side := if idx % 2 = 1 then Side.Left else Side.Right, sibling := sibling } ::
        proofIter H fuel (nextLevel H level) (idx / 2)

/-- `merkle_proof_sorted`: `None` for the empty list or an out-of-range
index, otherwise the leaf hash and its sibling path. -/
def merkle_proof_sorted (H : List Nat → List Nat) (pairs : List (List Nat × List Nat))
    (index : Nat) : Option MerkleProof :=
  if pairs.isEmpty ∨ pairs.length ≤ index then none
  else
    some { leaf := (pairs.map (fun kv => hash_leaf H kv.1 kv.2)).getD index zero32,
           path := proofIter H pairs.length (pairs.map (fun kv => hash_leaf H kv.1 kv.2)) index }

/-- The folding loop of `verify_proof`. -/
def fold_path (H : List Nat → List Nat) (leaf : List Nat) (path : List ProofItem) : List Nat :=
  path.foldl (fun cur item =>
    match item.side with
    | Side.Left => hash_node H item.sibling cur
    | Side.Right => hash_node H cur item.sibling) leaf

/-- `verify_proof`: recompute the root from the leaf along the path and
compare. -/
def verify_proof (H : List Nat → List Nat) (root : List Nat) (p : MerkleProof) : Bool :=
  fold_path H p.leaf p.path == root

theorem nextLevel_length (H : List Nat → List Nat) :
    ∀ l : List (List Nat), (nextLevel H l).length = (l.length + 1) / 2
  | [] => by simp [nextLevel]
  | [x] => by simp [nextLevel]
  | x :: y :: rest => by
    simp only [nextLevel, List.length_cons, nextLevel_length H rest]
    omega

theorem nextLevel_getD (H : List Nat → List Nat) :
    ∀ (l : List (List Nat)) (i : Nat), 2 * i < l.length →
      (nextLevel H l).getD i zero32 =
        hash_node H (l.getD (2 * i) zero32)
          (if 2 * i + 1 < l.length then l.getD (2 * i + 1) zero32 else l.getD (2 * i) zero32)
  | [], i, h => by simp at h
  | [x], i, h => by
    have : i = 0 := by simp at h; omega
    subst this
    simp [nextLevel]
  | x :: y :: rest, 0, h => by
    simp [nextLevel, List.length_cons]
  | x :: y :: rest, i + 1, h => by
    have hrec := nextLevel_getD H rest i (by simp at h; omega)
    have e1 : (x :: y :: rest).getD (2 * (i + 1)) zero32 = rest.getD (2 * i) zero32 := by
      have e : 2 * (i + 1) = 2 * i + 2 := by omega
      rw [e]
      rfl
    have e2 : (x :: y :: rest).getD (2 * (i + 1) + 1) zero32 = rest.getD (2 * i + 1) zero32 := by
      have e : 2 * (i + 1) + 1 = (2 * i + 1) + 2 := by omega
      rw [e]
      rfl
    have e3 : (nextLevel H (x :: y :: rest)).getD (i + 1) zero32 =
        (nextLevel H rest).getD i zero32 := rfl
    rw [e3, hrec, e1, e2]
    simp only [List.length_cons]
    congr 1
    by_cases hc : 2 * i + 1 < rest.length
    · rw [if_pos hc, if_pos (by omega)]
    · rw [if_neg hc, if_neg (by omega)]

theorem proofIter_succ (H : List Nat → List Nat) (fuel : Nat) (level : List (List Nat))
    (idx : Nat) (hlen : ¬ level.length ≤ 1) :
    proofIter H (fuel + 1) level idx =
      { side := if idx % 2 = 1 then Side.Left else Side.Right,
        sibling := if (if idx % 2 = 1 then idx - 1 else idx + 1) < level.length
          then level.getD (if idx % 2 = 1 then idx - 1 else idx + 1) zero32
          else level.getD idx zero32 } ::
        proofIter H fuel (nextLevel H level) (idx / 2) := by
  simp only [proofIter]
  rw [if_neg hlen]

theorem fold_path_cons (H : List Nat → List Nat) (leaf : List Nat) (item : ProofItem)
    (rest : List ProofItem) :
    fold_path H leaf (item :: rest) =
      fold_path H (match item.side with
        | Side.Left => hash_node H item.sibling leaf
        | Side.Right => hash_node H leaf item.sibling) rest := rfl

/-- The proof loop and the root loop stay in lockstep: folding the recorded
siblings onto the tracked element reproduces the single hash the root loop
ends with, for any sufficient fuel. -/
theorem rootIter_fold (H : List Nat → List Nat) :
    ∀ (fuel : Nat) (level : List (List Nat)) (idx : Nat), idx < level.length →
      level.length ≤ fuel + 1 →
      fold_path H (level.getD idx zero32) (proofIter H fuel level idx) =
        (rootIter H fuel level).headD zero32 := by
  intro fuel
  induction fuel with
  | zero =>
    intro level idx h1 h2
    have hl1 : level.length = 1 := by omega
    obtain ⟨x, rfl⟩ := List.length_eq_one.mp hl1
    have h0 : idx = 0 := by
      simp only [List.length_singleton] at h1
      omega
    subst h0
    simp [proofIter, fold_path, rootIter]
  | succ fuel ih =>
    intro level idx h1 h2
    by_cases hlen : level.length ≤ 1
    · have hl1 : level.length = 1 := by omega
      obtain ⟨x, rfl⟩ := List.length_eq_one.mp hl1
      have h0 : idx = 0 := by
        simp only [List.length_singleton] at h1
        omega
      subst h0
      simp [proofIter, fold_path, rootIter]
    · have hroot : rootIter H (fuel + 1) level = rootIter H fuel (nextLevel H level) := by
        have he : rootIter H (fuel + 1) level =
            if level.length ≤ 1 then level else rootIter H fuel (nextLevel H level) := rfl
        rw [he, if_neg hlen]
      have hnl : (nextLevel H level).length = (level.length + 1) / 2 := nextLevel_length H level
      have hid2 : idx / 2 < (nextLevel H level).length := by
        rw [hnl]
        omega
      have hfl : (nextLevel H level).length ≤ fuel + 1 := by
        rw [hnl]
        omega
      rw [proofIter_succ H fuel level idx hlen, fold_path_cons, hroot]
      have hparent : (match (if idx % 2 = 1 then Side.Left else Side.Right) with
          | Side.Left => hash_node H
              (if (if idx % 2 = 1 then idx - 1 else idx + 1) < level.length
                then level.getD (if idx % 2 = 1 then idx - 1 else idx + 1) zero32
                else level.getD idx zero32) (level.getD idx zero32)
          | Side.Right => hash_node H (level.getD idx zero32)
              (if (if idx % 2 = 1 then idx - 1 else idx + 1) < level.length
                then level.getD (if idx % 2 = 1 then idx - 1 else idx + 1) zero32
                else level.getD idx zero32)) =
          (nextLevel H level).getD (idx / 2) zero32 := by
        by_cases hodd : idx % 2 = 1
        · have e1 : 2 * (idx / 2) = idx - 1 := by omega
          have e2 : 2 * (idx / 2) + 1 = idx := by omega
          have hg := nextLevel_getD H level (idx / 2) (by omega)
          rw [e2, e1] at hg
          rw [if_pos hodd, if_pos hodd,
            if_pos (by omega : (idx - 1 : Nat) < level.length), hg,
            if_pos (by omega : idx < level.length)]
        · have e1 : 2 * (idx / 2) = idx := by omega
          have hg := nextLevel_getD H level (idx / 2) (by omega)
          rw [show 2 * (idx / 2) + 1 = idx + 1 by omega, e1] at hg
          rw [if_neg hodd, if_neg hodd, hg]
      rw [hparent]
      exact ih (nextLevel H level) (idx / 2) hid2 hfl

/-- Claim C6: the root of the empty pair list is the all-zero hash; for every
list of pairs and in-range index the generated inclusion proof exists and
verifies against the root; and the empty list or an out-of-range index
yields no proof.  All three hold for an arbitrary hash function `H`. -/
theorem c6_merkle_inclusion :
    (∀ H : List Nat → List Nat, merkle_root_sorted H [] = zero32) ∧
    (∀ (H : List Nat → List Nat) (pairs : List (List Nat × List Nat)) (i : Nat),
      i < pairs.length →
      ∃ p, merkle_proof_sorted H pairs i = some p ∧
        verify_proof H (merkle_root_sorted H pairs) p = true) ∧
    (∀ (H : List Nat → List Nat) (pairs : List (List Nat × List Nat)) (i : Nat),
      pairs = [] ∨ pairs.length ≤ i → merkle_proof_sorted H pairs i = none) := by
  refine ⟨fun H => rfl, ?_, ?_⟩
  · intro H pairs i hi
    have hne : ¬ (pairs.isEmpty = true ∨ pairs.length ≤ i) := by
      cases pairs with
      | nil => simp at hi
      | cons a l =>
        simp only [List.isEmpty_cons, List.length_cons, Bool.false_eq_true, false_or, not_le]
        simp only [List.length_cons] at hi
        omega
    refine ⟨_, by unfold merkle_proof_sorted; rw [if_neg hne], ?_⟩
    have hbe : ¬ pairs.isEmpty = true := fun hb => hne (Or.inl hb)
    unfold verify_proof merkle_root_sorted
    rw [if_neg hbe]
    have hfold := rootIter_fold H pairs.length (pairs.map (fun kv => hash_leaf H kv.1 kv.2)) i
      (by rw [List.length_map]; exact hi) (by rw [List.length_map]; omega)
    simp only [hfold]
    exact beq_self_eq_true _
  · intro H pairs i h
    unfold merkle_proof_sorted
    rw [if_pos]
    rcases h with h | h
    · subst h
      exact Or.inl rfl
    · exact Or.inr h

/-- A small concrete hash used to evaluate the Merkle theorems: the input
length reduced mod 256. -/
def merkleHw : List Nat → List Nat := fun l => [l.length % 256]

/-- The scenario pairs `("a","1"), ("b","2"), ("c","3")` as byte lists. -/
def pairsW : List (List Nat × List Nat) := [([97], [49]), ([98], [50]), ([99], [51])]

/-- The inclusion proof of index 1 under `merkleHw`. -/
def pW : MerkleProof :=
  { leaf := [25],
    path := [{ side := Side.Left, sibling := [25] }, { side := Side.Right, sibling := [25] }] }

/-- Claim C6 witness: the inclusion theorem applied to the three-pair list at
index 1 — the proof exists and verifies against the root. -/
theorem c6_merkle_inclusion_witness :
    merkle_proof_sorted merkleHw pairsW 1 = some pW ∧
    verify_proof merkleHw (merkle_root_sorted merkleHw pairsW) pW = true := by
  obtain ⟨p, hp, hv⟩ := c6_merkle_inclusion.2.1 merkleHw pairsW 1 (by decide)
  have hpw : some p = some pW := hp.symm.trans (by rfl)
  cases hpw
  exact ⟨hp, hv⟩

/-! ## Peer backoff (`src/networking/p2p.rs`, `BackoffState`)

`bump` mixes a deterministic jitter from SHA-256.  Modelled from the spec:
the hash is the external `ring::digest::SHA256` primitive, which is not in
the repository source; the FIPS 180-4 SHA-256 algorithm is therefore
implemented here directly (and checked against a published test vector)
so the jitter can be evaluated on concrete inputs.  `Instant`s become
milliseconds as `Nat`. -/

/-- 2^32, the modulus of 32-bit words. -/
def U32MOD : Nat := 4294967296

/-- `u32::MAX` for `saturating_add`. -/
def U32MAX : Nat := 4294967295

/-- 32-bit right rotation. -/
def rotr32 (n x : Nat) : Nat := ((x >>> n) ||| (x <<< (32 - n))) % U32MOD

/-- SHA-256 big sigma 0. -/
def bigSigma0 (x : Nat) : Nat := rotr32 2 x ^^^ rotr32 13 x ^^^ rotr32 22 x

/-- SHA-256 big sigma 1. -/
def bigSigma1 (x : Nat) : Nat := rotr32 6 x ^^^ rotr32 11 x ^^^ rotr32 25 x

/-- SHA-256 small sigma 0. -/
def smallSigma0 (x : Nat) : Nat := rotr32 7 x ^^^ rotr32 18 x ^^^ (x >>> 3)

/-- SHA-256 small sigma 1. -/
def smallSigma1 (x : Nat) : Nat := rotr32 17 x ^^^ rotr32 19 x ^^^ (x >>> 10)

/-- SHA-256 choice function (`¬x` as 32-bit complement). -/
def shaCh (x y z : Nat) : Nat := (x &&& y) ^^^ ((x ^^^ U32MAX) &&& z)

/-- SHA-256 majority function. -/
def shaMaj (x y z : Nat) : Nat := (x &&& y) ^^^ (x &&& z) ^^^ (y &&& z)

/-- SHA-256 round constants. -/
def K256 : List Nat :=
  [1116352408, 1899447441, 3049323471, 3921009573, 961987163, 1508970993, 2453635748,
   2870763221, 3624381080, 310598401, 607225278, 1426881987, 1925078388, 2162078206,
   2614888103, 3248222580, 3835390401, 4022224774, 264347078, 604807628, 770255983,
   1249150122, 1555081692, 1996064986, 2554220882, 2821834349, 2952996808, 3210313671,
   3336571891, 3584528711, 113926993, 338241895, 666307205, 773529912, 1294757372,
   1396182291, 1695183700, 1986661051, 2177026350, 2456956037, 2730485921, 2820302411,
   3259730800, 3345764771, 3516065817, 3600352804, 4094571909, 275423344, 430227734,
   506948616, 659060556, 883997877, 958139571, 1322822218, 1537002063, 1747873779,
   1955562222, 2024104815, 2227730452, 2361852424, 2428436474, 2756734187, 3204031479,
   3329325298]

/-- SHA-256 initial hash state. -/
def SHAINIT : List Nat :=
  [1779033703, 3144134277, 1013904242, 2773480762, 1359893119, 2600822924, 528734635,
   1541459225]

/-- Big-endian byte extraction: `k` bytes of `n`, most significant first. -/
def beBytes : Nat → Nat → List Nat
  | 0, _ => []
  | k + 1, n => n / 256 ^ k % 256 :: beBytes k n

/-- Big-endian read of a byte list. -/
def beToNat (l : List Nat) : Nat := l.foldl (fun acc b => acc * 256 + b) 0

/-- FIPS 180-4 padding: `0x80`, zeros, 64-bit big-endian bit length. -/
def padMsg (msg : List Nat) : List Nat :=
  msg ++ [128] ++ List.replicate ((64 - (msg.length + 9) % 64) % 64) 0 ++
    beBytes 8 (8 * msg.length)

/-- Big-endian 32-bit words of a block. -/
def toWords : List Nat → List Nat
  | b0 :: b1 :: b2 :: b3 :: rest => (((b0 * 256 + b1) * 256 + b2) * 256 + b3) :: toWords rest
  | _ => []

/-- One message-schedule extension step. -/
def scheduleStep (w : List Nat) : List Nat :=
  let n := w.length
  w ++ [(smallSigma1 (w.getD (n - 2) 0) + w.getD (n - 7) 0 + smallSigma0 (w.getD (n - 15) 0)
    + w.getD (n - 16) 0) % U32MOD]

/-- Extend the 16-word schedule to 64 words. -/
def buildSchedule : Nat → List Nat → List Nat
  | 0, w => w
  | k + 1, w => buildSchedule k (scheduleStep w)

/-- One SHA-256 compression round on the 8-word working state. -/
def compressStep (st : List Nat) (kw : Nat × Nat) : List Nat :=
  match st with
  | [a, b, c, d, e, f, g, h] =>
    let t1 := (h + bigSigma1 e + shaCh e f g + kw.1 + kw.2) % U32MOD
    let t2 := (bigSigma0 a + shaMaj a b c) % U32MOD
    [(t1 + t2) % U32MOD, a, b, c, (d + t1) % U32MOD, e, f, g]
  | _ => st

/-- Compress one 64-byte block into the hash state. -/
def compressBlock (h : List Nat) (block : List Nat) : List Nat :=
  let w := buildSchedule 48 (toWords block)
  let st := (K256.zip w).foldl compressStep h
  (h.zip st).map (fun p => (p.1 + p.2) % U32MOD)

/-- Fuel-bounded 64-byte chunking. -/
def chunks64F : Nat → List Nat → List (List Nat)
  | 0, _ => []
  | _, [] => []
  | fuel + 1, l => l.take 64 :: chunks64F fuel (l.drop 64)

/-- SHA-256 of a byte list. -/
def sha256 (msg : List Nat) : List Nat :=
  let padded := padMsg msg
  (((chunks64F padded.length padded).foldl compressBlock SHAINIT).map (beBytes 4)).flatten

/-- Cross-check of the SHA-256 model against the FIPS 180-4 test vector for
the message `"abc"`. -/
theorem sha256_test_vector_abc :
    sha256 [97, 98, 99] =
      [186, 120, 22, 191, 143, 1, 207, 234, 65, 65, 64, 222, 93, 174, 34, 35, 176, 3, 97,
       163, 150, 23, 122, 156, 180, 16, 255, 97, 242, 0, 21, 173] := by rfl

/-- Per-peer backoff state (`BackoffState`): `until_ms` renders the source
field `until` (a keyword here), the drop-until instant in ms; `strikes` is
the weighted strike count. -/
structure BackoffState where
  until_ms : Nat
  strikes : Nat
deriving DecidableEq, Repr

/-- `BackoffState::new`. -/
def BackoffState.new (now : Nat) : BackoffState := { until_ms := now, strikes := 0 }

/-- The deterministic jitter:
`sha256(peer_id || strikes_be4 || uptime_ms_be8)` read big-endian from the
first 8 digest bytes, mod 250. -/
def jitterOf (peer : List Nat) (strikes uptime_ms : Nat) : Nat :=
  beToNat ((sha256 (peer ++ beBytes 4 strikes ++ beBytes 8 uptime_ms)).take 8) % 250

/-- `BackoffState::bump`, translated line for line: saturating strike
accumulation capped at 100, exponent `min(strikes / 5, 8)`,
base `min(50 << exp, 5000)` ms, plus the jitter for the current uptime. -/
def BackoffState.bump (st : BackoffState) (peer : List Nat) (now : Nat) (weight : Nat)
    (startup : Nat) : BackoffState :=
  let strikes := min (min (st.strikes + weight) U32MAX) 100
  let base_ms := min (min (50 * (1 <<< min (strikes / 5) 8)) U64MAX) 5000
  let jitter := jitterOf peer strikes (now - startup)
  { until_ms := now + (base_ms + jitter), strikes := strikes }

/-- Claim C9 counterexample: two successive `bump` calls at the same instant
with weight 1 produce a strictly *decreasing* `until` — the strike bucket
(and hence the base) is unchanged while the jitter drops from 164 ms to
28 ms for this peer, so `until` values are not non-decreasing. -/
theorem c9_backoff_counterexample :
    (((BackoffState.new 1000).bump [0] 1000 1 0).bump [0] 1000 1 0).until_ms <
      ((BackoffState.new 1000).bump [0] 1000 1 0).until_ms := by decide

/-- Claim C9 (amended): each bump sets
`until = now + min(50·2^(strikes/5), 5000) + jitter` with `strikes` the
saturating strike sum capped at 100 (the source exponent cap at 8 is
redundant under the 5000 ms cap) and the jitter the deterministic
`sha256(peer_id || strikes || uptime) mod 250`; strikes never decrease and
`until` never precedes `now` — but the full `until` is not monotonic
across calls, as the jitter may shrink (see the counterexample). -/
theorem c9_backoff_formula (st : BackoffState) (peer : List Nat) (now weight startup : Nat) :
    (st.bump peer now weight startup).strikes = min (st.strikes + weight) 100 ∧
    (st.strikes ≤ 100 → st.strikes ≤ (st.bump peer now weight startup).strikes) ∧
    (st.bump peer now weight startup).until_ms =
      now + (min (50 * 2 ^ (min (st.strikes + weight) 100 / 5)) 5000 +
        jitterOf peer (min (st.strikes + weight) 100) (now - startup)) ∧
    now ≤ (st.bump peer now weight startup).until_ms := by
  have hstr : (st.bump peer now weight startup).strikes = min (st.strikes + weight) 100 := by
    show min (min (st.strikes + weight) U32MAX) 100 = min (st.strikes + weight) 100
    unfold U32MAX
    omega
  refine ⟨hstr, fun hle => by rw [hstr]; omega, ?_, ?_⟩
  · show now + (min (min (50 * (1 <<< min (min (min (st.strikes + weight) U32MAX) 100 / 5) 8))
        U64MAX) 5000 + jitterOf peer (min (min (st.strikes + weight) U32MAX) 100)
        (now - startup)) = _
    have hs : min (min (st.strikes + weight) U32MAX) 100 = min (st.strikes + weight) 100 := by
      unfold U32MAX
      omega
    rw [hs]
    have hbase : min (min (50 * (1 <<< min (min (st.strikes + weight) 100 / 5) 8)) U64MAX)
        5000 = min (50 * 2 ^ (min (st.strikes + weight) 100 / 5)) 5000 := by
      have he : min (st.strikes + weight) 100 / 5 ≤ 20 := by omega
      set e := min (st.strikes + weight) 100 / 5 with hee
      clear_value e
      interval_cases e <;> decide
    rw [hbase]
  · show now ≤ now + _
    omega

/-- Claim C9 witness: the formula theorem applied to the concrete first bump
of the counterexample — `strikes` goes to 1, the strike bound holds, and
`until = now + 50 + jitter`. -/
theorem c9_backoff_formula_witness :
    ((BackoffState.new 1000).bump [0] 1000 1 0).strikes = min (0 + 1) 100 ∧
    (BackoffState.new 1000).strikes ≤ ((BackoffState.new 1000).bump [0] 1000 1 0).strikes := by
  have h := c9_backoff_formula (BackoffState.new 1000) [0] 1000 1 0
  exact ⟨h.1, h.2.1 (by decide)⟩
